import Mathlib

set_option maxHeartbeats 2000000
set_option maxRecDepth 8192

/-!
Verification development for the two rewrite scripts of this repository,
`fix-ts4111.py` and `fix-process-env.py`.

Both scripts apply Python `re.sub` substitutions to the text of TypeScript
files.  The embedding models a file's text as a `List Char` and implements
each of the two regular-expression shapes that occur in the sources as an
explicit left-to-right, leftmost-match, non-overlapping scanner, which is
exactly the semantics of `re.sub` for these patterns (no pattern here can
match the empty string):

* `process\.env\.([A-Z_][A-Z0-9_]*)` with replacement `process.env['\1']`
  (both scripts; one builds the replacement from the template string, the
  other from a callback) — embedded as `penvSub`;
* `\.NAME\b(?!\()` with replacement `['NAME']`, for each of the 46 names of
  the pattern list of `fix-ts4111.py` — embedded as `subRule`.

`\w` (for `\b`) is modelled as ASCII alphanumeric or underscore; the word
boundary after `NAME` reduces to "the next character, if any, is not a word
character" because every `NAME` ends in a word character.  The scanners are
written with an explicit fuel argument (initialised with the length of the
input, which bounds the number of steps) so that they are structurally
recursive and compute inside the kernel.

The drivers (`main` of each script) are modelled over an abstract
filesystem `FSys`: `read` may fail with an error value, and `writeFail p`
indicates that writing path `p` raises (the Python `try` block covers the
read, the transform and the write).  Directory enumeration
(`Path.rglob("*.ts")` etc.) is modelled over a listing of all regular file
paths: a path matches iff it lies under the root directory and ends with
the suffix.
-/

/-- `\w` of the patterns, restricted to ASCII: letter, digit or underscore. -/
def wordChar (c : Char) : Bool := c.isAlphanum || c == '_'

/-- `[A-Z_]` — first character of the `process.env` property name. -/
def identStart (c : Char) : Bool := c.isUpper || c == '_'

/-- `[A-Z0-9_]` — subsequent characters of the `process.env` property name. -/
def identChar (c : Char) : Bool := c.isUpper || c.isDigit || c == '_'

/-- `\b(?!\()` after a name ending in a word character: the next character,
if any, is neither a word character nor an opening parenthesis. -/
def boundaryB : List Char → Bool
  | [] => true
  | c :: _ => !wordChar c && !(c == '(')

/-- Does `\.NAME\b(?!\()` match at the head of the text? -/
def ruleM (w : List Char) : List Char → Bool
  | [] => false
  | c :: rest => c == '.' && w.isPrefixOf rest && boundaryB (rest.drop w.length)

/-- The replacement string `['NAME']` of a generic identifier rule. -/
def brep (w : List Char) : List Char := '[' :: '\'' :: (w ++ ['\'', ']'])

/-- Scanner for one generic identifier rule, with fuel (the fuel bounds the
number of characters still to be scanned, so the recursion is structural). -/
def subRuleF (w : List Char) : Nat → List Char → List Char
  | _, [] => []
  | 0, s => s
  | fuel+1, c :: rest =>
    if ruleM w (c :: rest) then brep w ++ subRuleF w fuel (rest.drop w.length)
    else c :: subRuleF w fuel rest

/-- `re.sub(r"\.NAME\b(?!\()", "['NAME']", s)` for one name `w`. -/
def subRule (w s : List Char) : List Char := subRuleF w s.length s

/-- The literal `process.env.` of the property-name pattern. -/
def penvLit : List Char := ['p','r','o','c','e','s','s','.','e','n','v','.']

/-- After the literal `process.env.` there must be a `[A-Z_]` character. -/
def boundaryP : List Char → Bool
  | [] => false
  | c :: _ => identStart c

/-- Does `process\.env\.([A-Z_][A-Z0-9_]*)` match at the head of the text? -/
def penvM (cs : List Char) : Bool := penvLit.isPrefixOf cs && boundaryP (cs.drop 12)

/-- A compiled `re` replacement template: literal pieces and `\1` references. -/
inductive TItem where
  | lit (l : List Char)
  | group

/-- The template `process.env['\1']` of `fix-ts4111.py`. -/
def template : List TItem :=
  [TItem.lit ['p','r','o','c','e','s','s','.','e','n','v','[','\''], TItem.group,
   TItem.lit ['\'', ']']]

/-- Expansion of a replacement template at a match whose group 1 is `g`. -/
def expand : List TItem → List Char → List Char
  | [], _ => []
  | TItem.lit l :: ts, g => l ++ expand ts g
  | TItem.group :: ts, g => g ++ expand ts g

/-- The replacement callback of `fix-process-env.py`:
`f"process.env['{prop_name}']"` applied to group 1 of the match. -/
def replace_match (g : List Char) : List Char := "process.env['".data ++ g ++ "']".data

/-- Scanner for the `process.env` rule, parameterised by the function that
produces the replacement text from the captured group (template expansion in
`fix-ts4111.py`, the callback in `fix-process-env.py`), with fuel. -/
def penvSubF (rf : List Char → List Char) : Nat → List Char → List Char
  | _, [] => []
  | 0, s => s
  | fuel+1, c :: rest =>
    if penvM (c :: rest) then
      rf ((rest.drop 11).takeWhile identChar) ++
        penvSubF rf fuel ((rest.drop 11).dropWhile identChar)
    else c :: penvSubF rf fuel rest

/-- `re.sub(r"process\.env\.([A-Z_][A-Z0-9_]*)", repl, s)`. -/
def penvSub (rf : List Char → List Char) (s : List Char) : List Char :=
  penvSubF rf s.length s

namespace FixTs4111

/-- `fix_process_env` of `fix-ts4111.py` (replacement given as the template
string `process.env['\1']`). -/
def fix_process_env (content : List Char) : List Char := penvSub (expand template) content

end FixTs4111

namespace FixProcessEnv

/-- `fix_process_env` of `fix-process-env.py` (replacement computed by the
callback `replace_match`). -/
def fix_process_env (content : List Char) : List Char := penvSub replace_match content

end FixProcessEnv

/-- The pattern list of `fix-ts4111.py` (lines 44-100), in source order.
Every entry of the source list has the uniform shape
`(r"\.NAME\b(?!\()", "['NAME']")`, so each pair is represented by its NAME;
`subRule` implements the shared pattern/replacement shape. -/
def patterns : List (List Char) :=
  ["new".data, "read".data, "replied".data, "archived".data,
   "title".data, "description".data, "url".data, "alt".data, "keywords".data,
   "isAdmin".data, "email".data, "password".data, "confirmPassword".data,
   "name".data, "phone".data, "locale".data,
   "orderNumber".data, "firstName".data, "lastName".data, "itemCount".data,
   "method".data, "status".data, "address".data, "preferredDate".data,
   "productId".data, "orderId".data, "customerEmail".data, "options".data,
   "items".data, "choices".data,
   "name_cs".data, "name_en".data, "slug".data, "base_price".data,
   "category_id".data, "stock_quantity".data, "low_stock_threshold".data,
   "fallbackApplied".data, "svgFallbackApplied".data, "fallbackValue".data,
   "recoveryFailed".data,
   "q".data, "category".data, "sort".data, "page".data,
   "unknown".data]

/-- `fix_object_property_access` of `fix-ts4111.py`: apply each rule's
substitution in order, each rule seeing the previous rule's output. -/
def fix_object_property_access (content : List Char) (ps : List (List Char)) : List Char :=
  ps.foldl (fun acc w => subRule w acc) content

/-- The full per-file transform of `fix-ts4111.py` (`main`, lines 41 and 102):
`fix_process_env` followed by `fix_object_property_access` over `patterns`. -/
def transform (s : List Char) : List Char :=
  fix_object_property_access (FixTs4111.fix_process_env s) patterns

/-- Abstract filesystem: reading a path yields text or an error description;
`writeFail p = some e` means writing path `p` raises error `e`. -/
structure FSys where
  read : List Char → Except (List Char) (List Char)
  writeFail : List Char → Option (List Char)

/-- `path.write_text c`: subsequent reads of `p` return `c`. -/
def writeFs (fs : FSys) (p c : List Char) : FSys :=
  { fs with read := fun q => if q = p then Except.ok c else fs.read q }

/-- The prefix of a `Fixed: {file_path}` progress line. -/
def fixedPre : List Char := ['F','i','x','e','d',':',' ']

/-- The prefix of an `Error processing {file_path}: {e}` line. -/
def errPre : List Char := ['E','r','r','o','r',' ','p','r','o','c','e','s','s','i','n','g',' ']

/-- `f"Fixed: {file_path}"`. -/
def fixedLine (p : List Char) : List Char := fixedPre ++ p

/-- `f"Error processing {file_path}: {e}"`. -/
def errLine (p e : List Char) : List Char := errPre ++ p ++ (':' :: ' ' :: e)

/-- `f"\nFixed {fixed_count} files"`. -/
def summaryLine (n : Nat) : List Char :=
  '\n' :: ("Fixed ".data ++ (toString n).data ++ " files".data)

/-- Is a message a `Fixed: ...` line? -/
def isFixedMsg (m : List Char) : Bool := fixedPre.isPrefixOf m

/-- The body of the per-file `try`/`except` of `main`: read the file, apply
the transform `f`, and if the result differs write it back, bump the counter
and log `Fixed:`; any read or write failure is caught and logged as
`Error processing`, leaving the filesystem and the counter unchanged. -/
def processFile (f : List Char → List Char) (st : FSys × Nat × List (List Char))
    (p : List Char) : FSys × Nat × List (List Char) :=
  match st.1.read p with
  | Except.error e => (st.1, st.2.1, st.2.2 ++ [errLine p e])
  | Except.ok content =>
    if f content = content then (st.1, st.2.1, st.2.2)
    else
      match st.1.writeFail p with
      | some e => (st.1, st.2.1, st.2.2 ++ [errLine p e])
      | none => (writeFs st.1 p (f content), st.2.1 + 1, st.2.2 ++ [fixedLine p])

/-- The driver loop of `main`: fold `processFile` over the candidate list
starting from `fixed_count = 0`, then print the summary line. -/
def runMain (f : List Char → List Char) (fs : FSys) (files : List (List Char)) :
    FSys × Nat × List (List Char) :=
  let r := files.foldl (processFile f) (fs, 0, [])
  (r.1, r.2.1, r.2.2 ++ [summaryLine r.2.1])

/-- `list(root.rglob("*" + suffix))` over a listing `allFiles` of every
regular file path: the files under directory `root` whose name ends in
`suffix`. -/
def rglob (root suffix : List Char) (allFiles : List (List Char)) : List (List Char) :=
  allFiles.filter (fun p => (root ++ ['/']).isPrefixOf p && suffix.isSuffixOf p)

/-- The individually named file appended to the candidate list. -/
def nextConfig : List Char := "next.config.ts".data

/-- Candidate discovery of both `main`s (fix-ts4111.py lines 29-31):
`src/**/*.ts`, then `src/**/*.tsx`, then `scripts/**/*.ts`, then
`next.config.ts` appended unconditionally. -/
def discovered (allFiles : List (List Char)) : List (List Char) :=
  rglob "src".data ".ts".data allFiles ++ rglob "src".data ".tsx".data allFiles ++
    rglob "scripts".data ".ts".data allFiles ++ [nextConfig]

/-- No generic rule match at any suffix of `s` (the pattern of `w` matches
nowhere in `s`). -/
def cleanR (w s : List Char) : Prop := ∀ t ∈ s.tails, ruleM w t = false

/-- The `process.env` pattern matches nowhere in `s`. -/
def cleanP (s : List Char) : Prop := ∀ t ∈ s.tails, penvM t = false

instance cleanRDec (w s : List Char) : Decidable (cleanR w s) :=
  inferInstanceAs (Decidable (∀ t ∈ s.tails, ruleM w t = false))

instance cleanPDec (s : List Char) : Decidable (cleanP s) :=
  inferInstanceAs (Decidable (∀ t ∈ s.tails, penvM t = false))

/-- `process.env.` without its first character. -/
def penvTail11 : List Char := ['r','o','c','e','s','s','.','e','n','v','.']

/-- The literal part `process.env['` of the replacement. -/
def exLitA : List Char := ['p','r','o','c','e','s','s','.','e','n','v','[','\'']

/-- `process.env` (no trailing dot). -/
def lit11 : List Char := ['p','r','o','c','e','s','s','.','e','n','v']

/-- Path `p`'s processing fails: either its read raises `e`, or its read
succeeds with content that the transform changes and its write raises `e`. -/
def fileFails (f : List Char → List Char) (fs : FSys) (p e : List Char) : Prop :=
  fs.read p = Except.error e ∨
    ∃ c, fs.read p = Except.ok c ∧ f c ≠ c ∧ fs.writeFail p = some e

/-! ### Boolean prefix test against the prefix order -/

theorem isPrefixOf_eq : ∀ (l m : List Char), l.isPrefixOf m = true ↔ l <+: m := by
  intro l
  induction l with
  | nil => intro m; simp [List.isPrefixOf, List.nil_prefix]
  | cons a l ih =>
    intro m
    cases m with
    | nil =>
      simp only [List.isPrefixOf]
      constructor
      · intro h; cases h
      · intro h; exact absurd (List.prefix_nil.mp h) (by simp)
    | cons b m =>
      simp [List.isPrefixOf, List.cons_prefix_cons, ih m, Bool.and_eq_true, beq_iff_eq]

/-! ### Basic facts about the scanners -/

theorem subRuleF_fuel (w : List Char) :
    ∀ (f g : Nat) (s : List Char), s.length ≤ f → s.length ≤ g →
      subRuleF w f s = subRuleF w g s := by
  intro f
  induction f with
  | zero =>
    intro g s hf _
    have hs : s = [] := List.length_eq_zero.mp (Nat.le_zero.mp hf)
    subst hs; cases g <;> rfl
  | succ f ih =>
    intro g s hf hg
    cases s with
    | nil => cases g <;> rfl
    | cons c rest =>
      cases g with
      | zero => simp at hg
      | succ g' =>
        have hf' : rest.length ≤ f := Nat.succ_le_succ_iff.mp hf
        have hg' : rest.length ≤ g' := Nat.succ_le_succ_iff.mp hg
        have hd : (rest.drop w.length).length ≤ rest.length := by
          rw [List.length_drop]; omega
        simp only [subRuleF]
        by_cases h : ruleM w (c :: rest) = true
        · rw [if_pos h, if_pos h, ih g' (rest.drop w.length) (le_trans hd hf') (le_trans hd hg')]
        · rw [if_neg h, if_neg h, ih g' rest hf' hg']

theorem subRule_cons (w : List Char) (c : Char) (rest : List Char) :
    subRule w (c :: rest) =
      if ruleM w (c :: rest) then brep w ++ subRule w (rest.drop w.length)
      else c :: subRule w rest := by
  have hd : (rest.drop w.length).length ≤ rest.length := by
    rw [List.length_drop]; omega
  simp only [subRule, List.length_cons, subRuleF]
  by_cases h : ruleM w (c :: rest) = true
  · rw [if_pos h, if_pos h,
      subRuleF_fuel w rest.length (rest.drop w.length).length (rest.drop w.length) hd le_rfl]
  · rw [if_neg h, if_neg h, subRuleF_fuel w rest.length rest.length rest le_rfl le_rfl]

theorem penvSubF_fuel (rf : List Char → List Char) :
    ∀ (f g : Nat) (s : List Char), s.length ≤ f → s.length ≤ g →
      penvSubF rf f s = penvSubF rf g s := by
  intro f
  induction f with
  | zero =>
    intro g s hf _
    have hs : s = [] := List.length_eq_zero.mp (Nat.le_zero.mp hf)
    subst hs; cases g <;> rfl
  | succ f ih =>
    intro g s hf hg
    cases s with
    | nil => cases g <;> rfl
    | cons c rest =>
      cases g with
      | zero => simp at hg
      | succ g' =>
        have hf' : rest.length ≤ f := Nat.succ_le_succ_iff.mp hf
        have hg' : rest.length ≤ g' := Nat.succ_le_succ_iff.mp hg
        have hd : ((rest.drop 11).dropWhile identChar).length ≤ rest.length := by
          have h1 : ((rest.drop 11).dropWhile identChar).length ≤ (rest.drop 11).length :=
            (List.dropWhile_suffix identChar).length_le
          have h2 : (rest.drop 11).length ≤ rest.length := by rw [List.length_drop]; omega
          omega
        simp only [penvSubF]
        by_cases h : penvM (c :: rest) = true
        · rw [if_pos h, if_pos h,
            ih g' ((rest.drop 11).dropWhile identChar) (le_trans hd hf') (le_trans hd hg')]
        · rw [if_neg h, if_neg h, ih g' rest hf' hg']

theorem penvSub_cons (rf : List Char → List Char) (c : Char) (rest : List Char) :
    penvSub rf (c :: rest) =
      if penvM (c :: rest) then
        rf ((rest.drop 11).takeWhile identChar) ++
          penvSub rf ((rest.drop 11).dropWhile identChar)
      else c :: penvSub rf rest := by
  have hd : ((rest.drop 11).dropWhile identChar).length ≤ rest.length := by
    have h1 : ((rest.drop 11).dropWhile identChar).length ≤ (rest.drop 11).length :=
      (List.dropWhile_suffix identChar).length_le
    have h2 : (rest.drop 11).length ≤ rest.length := by rw [List.length_drop]; omega
    omega
  simp only [penvSub, List.length_cons, penvSubF]
  by_cases h : penvM (c :: rest) = true
  · rw [if_pos h, if_pos h, penvSubF_fuel rf rest.length _ _ hd le_rfl]
  · rw [if_neg h, if_neg h, penvSubF_fuel rf rest.length _ _ le_rfl le_rfl]

/-! ### Suffix and prefix toolkit -/

theorem suffix_split {α : Type} {t a b : List α} (h : t <:+ a ++ b) :
    t <:+ b ∨ ∃ a', a' <:+ a ∧ a' ≠ [] ∧ t = a' ++ b := by
  induction a with
  | nil => left; simpa using h
  | cons c a' ih =>
    rw [List.cons_append, List.suffix_cons_iff] at h
    cases h with
    | inl h => right; exact ⟨c :: a', List.suffix_rfl, by simp, by simpa using h⟩
    | inr h =>
      rcases ih h with h' | ⟨a'', ha, hne, ht⟩
      · left; exact h'
      · right; exact ⟨a'', ha.trans (List.suffix_cons c a'), hne, ht⟩

theorem suffix_head_uniq {x : Char} {l : List Char} (t t' : List Char) (hx : x ∉ l)
    (hs : t <:+ x :: l) (ht : t = x :: t') : t = x :: l := by
  rcases (List.suffix_cons_iff.mp hs) with h | h
  · exact h
  · exact absurd (h.subset (ht ▸ List.mem_cons_self x t')) hx

theorem mem_last_of_sfx {x : Char} {t a : List Char} (h : t <:+ a ++ [x]) (hne : t ≠ []) :
    x ∈ t := by
  rcases suffix_split h with h' | ⟨a', _, _, ht⟩
  · rcases List.suffix_cons_iff.mp h' with h'' | h''
    · rw [h'']; exact List.mem_singleton.mpr rfl
    · simp at h''; exact absurd h'' hne
  · rw [ht]; exact List.mem_append_right a' (List.mem_singleton.mpr rfl)

theorem cleanR_apply {w s t : List Char} (h : cleanR w s) (ht : t <:+ s) :
    ruleM w t = false := h t ((List.mem_tails t s).mpr ht)

theorem cleanP_apply {s t : List Char} (h : cleanP s) (ht : t <:+ s) :
    penvM t = false := h t ((List.mem_tails t s).mpr ht)

theorem cleanR_mono {w s t : List Char} (h : cleanR w s) (ht : t <:+ s) : cleanR w t :=
  fun u hu => h u ((List.mem_tails u s).mpr (((List.mem_tails u t).mp hu).trans ht))

theorem cleanP_mono {s t : List Char} (h : cleanP s) (ht : t <:+ s) : cleanP t :=
  fun u hu => h u ((List.mem_tails u s).mpr (((List.mem_tails u t).mp hu).trans ht))

theorem cleanR_of_sfx {w s : List Char} (h : ∀ t, t <:+ s → ruleM w t = false) :
    cleanR w s := fun t htl => h t ((List.mem_tails t s).mp htl)

theorem cleanP_of_sfx {s : List Char} (h : ∀ t, t <:+ s → penvM t = false) :
    cleanP s := fun t htl => h t ((List.mem_tails t s).mp htl)

/-- Membership in the replacement `['w']` of a generic rule. -/
theorem mem_brep {d : Char} {w : List Char} (h : d ∈ brep w) :
    d = '[' ∨ d = '\'' ∨ d ∈ w ∨ d = ']' := by
  simp only [brep, List.mem_cons, List.mem_append] at h
  tauto

/-- No character of the replacement `['w']` of a generic rule is a dot. -/
theorem brep_no_dot {d : Char} {w : List Char} (hw : ∀ c ∈ w, wordChar c = true)
    (h : d ∈ brep w) : d ≠ '.' := by
  intro hd; subst hd
  rcases mem_brep h with h' | h' | h' | h' <;> first
    | exact absurd h' (by decide)
    | exact absurd (hw _ h') (by decide)

/-! ### Transfer of a head match from the output of a scanner back to its input

If a word-character string `v` followed by a rule boundary occurs at the head
of `subRule w s`, it already occurred at the head of `s`.  This is the key
step showing that a substitution pass cannot create new match positions at
characters it copied unchanged. -/

theorem qRule (w : List Char) :
    ∀ (fuel : Nat) (s v : List Char), s.length ≤ fuel →
      (∀ c ∈ v, wordChar c = true) →
      v.isPrefixOf (subRuleF w fuel s) = true →
      boundaryB ((subRuleF w fuel s).drop v.length) = true →
      v.isPrefixOf s = true ∧ boundaryB (s.drop v.length) = true := by
  intro fuel
  induction fuel with
  | zero =>
    intro s v hf hv hp hb
    have hs : s = [] := List.length_eq_zero.mp (Nat.le_zero.mp hf)
    subst hs; exact ⟨hp, hb⟩
  | succ fuel ih =>
    intro s v hf hv hp hb
    cases s with
    | nil => exact ⟨hp, hb⟩
    | cons c rest =>
      have hf' : rest.length ≤ fuel := Nat.succ_le_succ_iff.mp hf
      simp only [subRuleF] at hp hb
      by_cases hm : ruleM w (c :: rest) = true
      · rw [if_pos hm] at hp hb
        cases v with
        | nil =>
          refine ⟨rfl, ?_⟩
          have hc : c = '.' := by
            simp only [ruleM, Bool.and_eq_true, beq_iff_eq] at hm
            exact hm.1.1
          subst hc
          simp only [List.length_nil, List.drop_zero, boundaryB]
          decide
        | cons d v' =>
          exfalso
          have hd : d = '[' := by
            simp only [brep, List.cons_append, List.isPrefixOf, Bool.and_eq_true,
              beq_iff_eq] at hp
            exact hp.1
          have := hv d (List.mem_cons_self d v')
          rw [hd] at this
          exact absurd this (by decide)
      · rw [if_neg hm] at hp hb
        cases v with
        | nil =>
          refine ⟨rfl, ?_⟩
          simpa only [List.drop_zero, boundaryB] using hb
        | cons d v' =>
          simp only [List.isPrefixOf, Bool.and_eq_true, beq_iff_eq] at hp
          obtain ⟨hdc, hp'⟩ := hp
          rw [List.length_cons, List.drop_succ_cons] at hb
          have hv' : ∀ c ∈ v', wordChar c = true := fun c hc => hv c (List.mem_cons_of_mem d hc)
          obtain ⟨h1, h2⟩ := ih rest v' hf' hv' hp' hb
          refine ⟨?_, ?_⟩
          · simp only [List.isPrefixOf, Bool.and_eq_true, beq_iff_eq]
            exact ⟨hdc, h1⟩
          · rw [List.length_cons, List.drop_succ_cons]; exact h2

/-! ### Facts about the `process.env` literal and replacement -/

theorem expand_template (g : List Char) :
    expand template g = exLitA ++ (g ++ ['\'', ']']) := by
  simp [expand, template, exLitA]

theorem penvM_cons (c : Char) (x : List Char) :
    penvM (c :: x) = ((('p' == c) && penvTail11.isPrefixOf x) && boundaryP (x.drop 11)) := rfl

theorem penvLit_eq : penvLit = lit11 ++ ['.'] := rfl

theorem exLitA_eq : exLitA = lit11 ++ ['[', '\''] := rfl

theorem penvLit_eq_cons : penvLit = 'p' :: penvTail11 := rfl

/-- The pattern literal `process.env.` is not a prefix of the replacement
text `process.env['...`: they differ at index 11 (`.` against `[`). -/
theorem not_penvLit_pref (X : List Char) : ¬ penvLit <+: exLitA ++ X := by
  rw [penvLit_eq, exLitA_eq, List.append_assoc]
  intro h
  have h' := (List.prefix_append_right_inj lit11).mp h
  have h'' : ('.' :: ([] : List Char)) <+: '[' :: ('\'' :: X) := h'
  exact absurd (List.cons_prefix_cons.mp h'').1 (by decide)

theorem penvM_repl_false (X : List Char) : penvM (exLitA ++ X) = false := by
  cases h : penvM (exLitA ++ X)
  · rfl
  · exfalso
    simp only [penvM, Bool.and_eq_true] at h
    exact not_penvLit_pref X ((isPrefixOf_eq _ _).mp h.1)

/-! ### Transfer of head matches of the `process.env` pattern -/

theorem qPenvGen (w : List Char) :
    ∀ (fuel : Nat) (s u : List Char), s.length ≤ fuel → u <:+ penvLit →
      u.isPrefixOf (subRuleF w fuel s) = true →
      boundaryP ((subRuleF w fuel s).drop u.length) = true →
      u.isPrefixOf s = true ∧ boundaryP (s.drop u.length) = true := by
  intro fuel
  induction fuel with
  | zero =>
    intro s u hf hu hp hb
    have hs : s = [] := List.length_eq_zero.mp (Nat.le_zero.mp hf)
    subst hs; exact ⟨hp, hb⟩
  | succ fuel ih =>
    intro s u hf hu hp hb
    cases s with
    | nil => exact ⟨hp, hb⟩
    | cons c rest =>
      have hf' : rest.length ≤ fuel := Nat.succ_le_succ_iff.mp hf
      simp only [subRuleF] at hp hb
      by_cases hm : ruleM w (c :: rest) = true
      · rw [if_pos hm] at hp hb
        cases u with
        | nil =>
          exfalso
          simp only [List.length_nil, List.drop_zero, brep, List.cons_append, boundaryP] at hb
          exact absurd hb (by decide)
        | cons d u' =>
          exfalso
          have hd : d = '[' := by
            simp only [brep, List.cons_append, List.isPrefixOf, Bool.and_eq_true,
              beq_iff_eq] at hp
            exact hp.1
          have : d ∈ penvLit := hu.subset (List.mem_cons_self d u')
          rw [hd] at this
          exact absurd this (by decide)
      · rw [if_neg hm] at hp hb
        cases u with
        | nil =>
          refine ⟨rfl, ?_⟩
          simpa only [List.drop_zero, boundaryP] using hb
        | cons d u' =>
          simp only [List.isPrefixOf, Bool.and_eq_true, beq_iff_eq] at hp
          obtain ⟨hdc, hp'⟩ := hp
          rw [List.length_cons, List.drop_succ_cons] at hb
          have hu' : u' <:+ penvLit := (List.suffix_cons d u').trans hu
          obtain ⟨h1, h2⟩ := ih rest u' hf' hu' hp' hb
          refine ⟨?_, ?_⟩
          · simp only [List.isPrefixOf, Bool.and_eq_true, beq_iff_eq]
            exact ⟨hdc, h1⟩
          · rw [List.length_cons, List.drop_succ_cons]; exact h2

theorem qPenvSelf :
    ∀ (fuel : Nat) (s u : List Char), s.length ≤ fuel → u <:+ penvLit →
      u.isPrefixOf (penvSubF (expand template) fuel s) = true →
      boundaryP ((penvSubF (expand template) fuel s).drop u.length) = true →
      u.isPrefixOf s = true ∧ boundaryP (s.drop u.length) = true := by
  intro fuel
  induction fuel with
  | zero =>
    intro s u hf hu hp hb
    have hs : s = [] := List.length_eq_zero.mp (Nat.le_zero.mp hf)
    subst hs; exact ⟨hp, hb⟩
  | succ fuel ih =>
    intro s u hf hu hp hb
    cases s with
    | nil => exact ⟨hp, hb⟩
    | cons c rest =>
      have hf' : rest.length ≤ fuel := Nat.succ_le_succ_iff.mp hf
      simp only [penvSubF] at hp hb
      by_cases hm : penvM (c :: rest) = true
      · rw [if_pos hm, expand_template] at hp hb
        cases u with
        | nil =>
          exfalso
          simp only [List.length_nil, List.drop_zero, exLitA, List.cons_append,
            List.append_assoc, boundaryP] at hb
          exact absurd hb (by decide)
        | cons d u' =>
          exfalso
          have hd : d = 'p' := by
            simp only [exLitA, List.cons_append, List.append_assoc, List.isPrefixOf,
              Bool.and_eq_true, beq_iff_eq] at hp
            exact hp.1
          have hul : d :: u' = penvLit := by
            refine suffix_head_uniq (x := 'p') _ u' (by decide) ?_ ?_
            · exact hu
            · rw [hd]
          have hpref : penvLit <+: exLitA ++
              (((rest.drop 11).takeWhile identChar ++ ['\'', ']']) ++
                penvSubF (expand template) fuel ((rest.drop 11).dropWhile identChar)) := by
            have := (isPrefixOf_eq _ _).mp (hul ▸ hp)
            simpa [List.append_assoc] using this
          exact not_penvLit_pref _ hpref
      · rw [if_neg hm] at hp hb
        cases u with
        | nil =>
          refine ⟨rfl, ?_⟩
          simpa only [List.drop_zero, boundaryP] using hb
        | cons d u' =>
          simp only [List.isPrefixOf, Bool.and_eq_true, beq_iff_eq] at hp
          obtain ⟨hdc, hp'⟩ := hp
          rw [List.length_cons, List.drop_succ_cons] at hb
          have hu' : u' <:+ penvLit := (List.suffix_cons d u').trans hu
          obtain ⟨h1, h2⟩ := ih rest u' hf' hu' hp' hb
          refine ⟨?_, ?_⟩
          · simp only [List.isPrefixOf, Bool.and_eq_true, beq_iff_eq]
            exact ⟨hdc, h1⟩
          · rw [List.length_cons, List.drop_succ_cons]; exact h2

/-! ### Cleanliness of scanner outputs -/

theorem brep_eq (w : List Char) : brep w = ('[' :: '\'' :: (w ++ ['\''])) ++ [']'] := by
  simp [brep]

/-- The output of a generic rule's substitution contains no match of that
rule's own pattern. -/
theorem subRuleF_selfclean (w : List Char) (hw : ∀ c ∈ w, wordChar c = true) :
    ∀ (fuel : Nat) (s : List Char), s.length ≤ fuel →
      ∀ t, t <:+ subRuleF w fuel s → ruleM w t = false := by
  intro fuel
  induction fuel with
  | zero =>
    intro s hf t ht
    have hs : s = [] := List.length_eq_zero.mp (Nat.le_zero.mp hf)
    subst hs
    rw [List.suffix_nil.mp ht]; rfl
  | succ fuel ih =>
    intro s hf t ht
    cases s with
    | nil =>
      rw [List.suffix_nil.mp ht]; rfl
    | cons c rest =>
      have hf' : rest.length ≤ fuel := Nat.succ_le_succ_iff.mp hf
      simp only [subRuleF] at ht
      by_cases hm : ruleM w (c :: rest) = true
      · rw [if_pos hm] at ht
        rcases suffix_split ht with h | ⟨ta, hta, hne, hteq⟩
        · exact ih (rest.drop w.length)
            (le_trans (by rw [List.length_drop]; omega) hf') t h
        · obtain ⟨d, ta', hdta⟩ := List.exists_cons_of_ne_nil hne
          subst hdta
          have hd : d ∈ brep w := hta.subset (List.mem_cons_self d ta')
          have hdd : d ≠ '.' := brep_no_dot hw hd
          rw [hteq]
          simp [ruleM, hdd]
      · rw [if_neg hm] at ht
        rcases List.suffix_cons_iff.mp ht with h | h
        · subst h
          by_cases hc : c = '.'
          · subst hc
            cases hr : ruleM w ('.' :: subRuleF w fuel rest)
            · rfl
            · exfalso
              simp only [ruleM, Bool.and_eq_true, beq_iff_eq] at hr
              obtain ⟨⟨-, hp⟩, hb⟩ := hr
              obtain ⟨h1, h2⟩ := qRule w fuel rest w hf' hw hp hb
              exact hm (by simp only [ruleM, Bool.and_eq_true, beq_iff_eq]; exact ⟨⟨by trivial, h1⟩, h2⟩)
          · simp [ruleM, hc]
        · exact ih rest hf' t h

/-- A generic rule's substitution cannot create a match of another generic
rule's pattern. -/
theorem subRuleF_keepR (v w : List Char) (hv : ∀ c ∈ v, wordChar c = true)
    (hw : ∀ c ∈ w, wordChar c = true) :
    ∀ (fuel : Nat) (s : List Char), s.length ≤ fuel → cleanR v s →
      ∀ t, t <:+ subRuleF w fuel s → ruleM v t = false := by
  intro fuel
  induction fuel with
  | zero =>
    intro s hf _ t ht
    have hs : s = [] := List.length_eq_zero.mp (Nat.le_zero.mp hf)
    subst hs
    rw [List.suffix_nil.mp ht]; rfl
  | succ fuel ih =>
    intro s hf hcl t ht
    cases s with
    | nil =>
      rw [List.suffix_nil.mp ht]; rfl
    | cons c rest =>
      have hf' : rest.length ≤ fuel := Nat.succ_le_succ_iff.mp hf
      have hclr : cleanR v rest := cleanR_mono hcl (List.suffix_cons c rest)
      simp only [subRuleF] at ht
      by_cases hm : ruleM w (c :: rest) = true
      · rw [if_pos hm] at ht
        rcases suffix_split ht with h | ⟨ta, hta, hne, hteq⟩
        · exact ih (rest.drop w.length)
            (le_trans (by rw [List.length_drop]; omega) hf')
            (cleanR_mono hclr (List.drop_suffix w.length rest)) t h
        · obtain ⟨d, ta', hdta⟩ := List.exists_cons_of_ne_nil hne
          subst hdta
          have hd : d ∈ brep w := hta.subset (List.mem_cons_self d ta')
          have hdd : d ≠ '.' := brep_no_dot hw hd
          rw [hteq]
          simp [ruleM, hdd]
      · rw [if_neg hm] at ht
        rcases List.suffix_cons_iff.mp ht with h | h
        · subst h
          by_cases hc : c = '.'
          · subst hc
            cases hr : ruleM v ('.' :: subRuleF w fuel rest)
            · rfl
            · exfalso
              simp only [ruleM, Bool.and_eq_true, beq_iff_eq] at hr
              obtain ⟨⟨-, hp⟩, hb⟩ := hr
              obtain ⟨h1, h2⟩ := qRule w fuel rest v hf' hv hp hb
              have hvr : ruleM v ('.' :: rest) = true := by
                simp only [ruleM, Bool.and_eq_true, beq_iff_eq]; exact ⟨⟨by trivial, h1⟩, h2⟩
              rw [cleanR_apply hcl List.suffix_rfl] at hvr
              exact Bool.false_ne_true hvr
          · simp [ruleM, hc]
        · exact ih rest hf' hclr t h

/-- A generic rule's substitution cannot create a match of the
`process.env` pattern. -/
theorem subRuleF_keepP (w : List Char) (hw : ∀ c ∈ w, wordChar c = true) :
    ∀ (fuel : Nat) (s : List Char), s.length ≤ fuel → cleanP s →
      ∀ t, t <:+ subRuleF w fuel s → penvM t = false := by
  intro fuel
  induction fuel with
  | zero =>
    intro s hf _ t ht
    have hs : s = [] := List.length_eq_zero.mp (Nat.le_zero.mp hf)
    subst hs
    rw [List.suffix_nil.mp ht]; rfl
  | succ fuel ih =>
    intro s hf hcl t ht
    cases s with
    | nil =>
      rw [List.suffix_nil.mp ht]; rfl
    | cons c rest =>
      have hf' : rest.length ≤ fuel := Nat.succ_le_succ_iff.mp hf
      have hclr : cleanP rest := cleanP_mono hcl (List.suffix_cons c rest)
      simp only [subRuleF] at ht
      by_cases hm : ruleM w (c :: rest) = true
      · rw [if_pos hm] at ht
        rcases suffix_split ht with h | ⟨ta, hta, hne, hteq⟩
        · exact ih (rest.drop w.length)
            (le_trans (by rw [List.length_drop]; omega) hf')
            (cleanP_mono hclr (List.drop_suffix w.length rest)) t h
        · subst hteq
          cases hpm : penvM (ta ++ subRuleF w fuel (rest.drop w.length))
          · rfl
          · exfalso
            simp only [penvM, Bool.and_eq_true] at hpm
            have hp : penvLit <+: ta ++ subRuleF w fuel (rest.drop w.length) :=
              (isPrefixOf_eq _ _).mp hpm.1
            have htake : penvLit = (ta ++ subRuleF w fuel (rest.drop w.length)).take 12 := by
              have h12 : penvLit.length = 12 := by decide
              have hpt := List.prefix_iff_eq_take.mp hp
              rwa [h12] at hpt
            have hzmem : (']' : Char) ∈ ta := by
              refine mem_last_of_sfx (a := '[' :: '\'' :: (w ++ ['\''])) ?_ hne
              rw [← brep_eq w]; exact hta
            by_cases hlen : ta.length ≤ 12
            · have heq : (ta ++ subRuleF w fuel (rest.drop w.length)).take 12 =
                  ta ++ (subRuleF w fuel (rest.drop w.length)).take (12 - ta.length) := by
                rw [List.take_append_eq_append_take, List.take_of_length_le hlen]
              rw [heq] at htake
              have hcontra : (']' : Char) ∈ penvLit := htake ▸ List.mem_append_left _ hzmem
              exact absurd hcontra (by decide)
            · have heq : (ta ++ subRuleF w fuel (rest.drop w.length)).take 12 =
                  ta.take 12 := by
                rw [List.take_append_eq_append_take]
                have h0 : 12 - ta.length = 0 := by omega
                rw [h0, List.take_zero, List.append_nil]
              have hdot : ('.' : Char) ∈ ta.take 12 := by
                have hdm : ('.' : Char) ∈ penvLit := by decide
                rw [htake, heq] at hdm
                exact hdm
              have hdotta : ('.' : Char) ∈ ta := List.take_subset 12 ta hdot
              exact absurd rfl (brep_no_dot hw (hta.subset hdotta))
      · rw [if_neg hm] at ht
        rcases List.suffix_cons_iff.mp ht with h | h
        · subst h
          cases hpm : penvM (c :: subRuleF w fuel rest)
          · rfl
          · exfalso
            rw [penvM_cons, Bool.and_eq_true, Bool.and_eq_true, beq_iff_eq] at hpm
            obtain ⟨⟨hcp, hp⟩, hb⟩ := hpm
            obtain ⟨h1, h2⟩ := qPenvGen w fuel rest penvTail11 hf' ⟨['p'], rfl⟩ hp hb
            have hpmr : penvM (c :: rest) = true := by
              rw [penvM_cons, Bool.and_eq_true, Bool.and_eq_true, beq_iff_eq]
              exact ⟨⟨hcp, h1⟩, by simpa using h2⟩
            rw [cleanP_apply hcl List.suffix_rfl] at hpmr
            exact Bool.false_ne_true hpmr
        · exact ih rest hf' hclr t h

/-- The output of the `process.env` substitution contains no match of the
`process.env` pattern. -/
theorem penvF_selfclean :
    ∀ (fuel : Nat) (s : List Char), s.length ≤ fuel →
      ∀ t, t <:+ penvSubF (expand template) fuel s → penvM t = false := by
  intro fuel
  induction fuel with
  | zero =>
    intro s hf t ht
    have hs : s = [] := List.length_eq_zero.mp (Nat.le_zero.mp hf)
    subst hs
    rw [List.suffix_nil.mp ht]; rfl
  | succ fuel ih =>
    intro s hf t ht
    cases s with
    | nil =>
      rw [List.suffix_nil.mp ht]; rfl
    | cons c rest =>
      have hf' : rest.length ≤ fuel := Nat.succ_le_succ_iff.mp hf
      have hfd : ((rest.drop 11).dropWhile identChar).length ≤ fuel := by
        have h1 : ((rest.drop 11).dropWhile identChar).length ≤ (rest.drop 11).length :=
          (List.dropWhile_suffix identChar).length_le
        have h2 : (rest.drop 11).length ≤ rest.length := by rw [List.length_drop]; omega
        omega
      simp only [penvSubF] at ht
      by_cases hm : penvM (c :: rest) = true
      · rw [if_pos hm, expand_template, List.append_assoc] at ht
        rcases suffix_split ht with h | ⟨ta, hta, hne, hteq⟩
        · rcases suffix_split h with h' | ⟨tb, htb, hbne, hbeq⟩
          · exact ih _ hfd t h'
          · subst hbeq
            obtain ⟨d, tb', hdtb⟩ := List.exists_cons_of_ne_nil hbne
            subst hdtb
            have hd : d ∈ ((rest.drop 11).takeWhile identChar ++ ['\'', ']']) :=
              htb.subset (List.mem_cons_self d tb')
            have hdp : d ≠ 'p' := by
              intro hdp; subst hdp
              rcases List.mem_append.mp hd with h'' | h''
              · exact absurd (List.mem_takeWhile_imp h'') (by decide)
              · exact absurd h'' (by decide)
            rw [List.cons_append, penvM_cons]
            simp [Ne.symm hdp]
        · subst hteq
          obtain ⟨d, ta', hdta⟩ := List.exists_cons_of_ne_nil hne
          subst hdta
          by_cases hdp : d = 'p'
          · subst hdp
            have hta' : 'p' :: ta' = exLitA :=
              suffix_head_uniq (x := 'p') _ ta' (by decide) hta rfl
            rw [List.cons_append] at *
            have hfull : ('p' :: (ta' ++
                ((rest.drop 11).takeWhile identChar ++ ['\'', ']'] ++
                  penvSubF (expand template) fuel ((rest.drop 11).dropWhile identChar)))) =
                exLitA ++
                ((rest.drop 11).takeWhile identChar ++ ['\'', ']'] ++
                  penvSubF (expand template) fuel ((rest.drop 11).dropWhile identChar)) := by
              rw [← hta', List.cons_append]
            rw [hfull]
            exact penvM_repl_false _
          · rw [List.cons_append, penvM_cons]
            simp [Ne.symm hdp]
      · rw [if_neg hm] at ht
        rcases List.suffix_cons_iff.mp ht with h | h
        · subst h
          cases hpm : penvM (c :: penvSubF (expand template) fuel rest)
          · rfl
          · exfalso
            rw [penvM_cons, Bool.and_eq_true, Bool.and_eq_true, beq_iff_eq] at hpm
            obtain ⟨⟨hcp, hp⟩, hb⟩ := hpm
            obtain ⟨h1, h2⟩ := qPenvSelf fuel rest penvTail11 hf' ⟨['p'], rfl⟩ hp hb
            have hpmr : penvM (c :: rest) = true := by
              rw [penvM_cons, Bool.and_eq_true, Bool.and_eq_true, beq_iff_eq]
              exact ⟨⟨hcp, h1⟩, by simpa using h2⟩
            exact hm hpmr
        · exact ih rest hf' t h

/-! ### Identity of the scanners on clean input -/

theorem subRuleF_id (w : List Char) :
    ∀ (fuel : Nat) (s : List Char), s.length ≤ fuel → cleanR w s →
      subRuleF w fuel s = s := by
  intro fuel
  induction fuel with
  | zero =>
    intro s hf _
    have hs : s = [] := List.length_eq_zero.mp (Nat.le_zero.mp hf)
    subst hs; rfl
  | succ fuel ih =>
    intro s hf hcl
    cases s with
    | nil => rfl
    | cons c rest =>
      have hf' : rest.length ≤ fuel := Nat.succ_le_succ_iff.mp hf
      have hm : ruleM w (c :: rest) = false := cleanR_apply hcl List.suffix_rfl
      simp only [subRuleF]
      rw [if_neg (by simp [hm]), ih rest hf' (cleanR_mono hcl (List.suffix_cons c rest))]

theorem penvSubF_id (rf : List Char → List Char) :
    ∀ (fuel : Nat) (s : List Char), s.length ≤ fuel → cleanP s →
      penvSubF rf fuel s = s := by
  intro fuel
  induction fuel with
  | zero =>
    intro s hf _
    have hs : s = [] := List.length_eq_zero.mp (Nat.le_zero.mp hf)
    subst hs; rfl
  | succ fuel ih =>
    intro s hf hcl
    cases s with
    | nil => rfl
    | cons c rest =>
      have hf' : rest.length ≤ fuel := Nat.succ_le_succ_iff.mp hf
      have hm : penvM (c :: rest) = false := cleanP_apply hcl List.suffix_rfl
      simp only [penvSubF]
      rw [if_neg (by simp [hm]), ih rest hf' (cleanP_mono hcl (List.suffix_cons c rest))]

/-! ### Wrapped versions on `subRule`, `penvSub` and the rule fold -/

theorem subRule_clean (w s : List Char) (hw : ∀ c ∈ w, wordChar c = true) :
    cleanR w (subRule w s) :=
  cleanR_of_sfx (subRuleF_selfclean w hw s.length s le_rfl)

theorem subRule_keepR (v w s : List Char) (hv : ∀ c ∈ v, wordChar c = true)
    (hw : ∀ c ∈ w, wordChar c = true) (h : cleanR v s) : cleanR v (subRule w s) :=
  cleanR_of_sfx (subRuleF_keepR v w hv hw s.length s le_rfl h)

theorem subRule_keepP (w s : List Char) (hw : ∀ c ∈ w, wordChar c = true)
    (h : cleanP s) : cleanP (subRule w s) :=
  cleanP_of_sfx (subRuleF_keepP w hw s.length s le_rfl h)

theorem penv_clean (s : List Char) : cleanP (FixTs4111.fix_process_env s) :=
  cleanP_of_sfx (penvF_selfclean s.length s le_rfl)

theorem subRule_id {w s : List Char} (h : cleanR w s) : subRule w s = s :=
  subRuleF_id w s.length s le_rfl h

theorem penvSub_id (rf : List Char → List Char) {s : List Char} (h : cleanP s) :
    penvSub rf s = s :=
  penvSubF_id rf s.length s le_rfl h

theorem patterns_word : ∀ w ∈ patterns, ∀ c ∈ w, wordChar c = true := by decide

theorem fopa_eq_self :
    ∀ (ps : List (List Char)) (s : List Char), (∀ w ∈ ps, cleanR w s) →
      fix_object_property_access s ps = s := by
  intro ps
  induction ps with
  | nil => intro s _; rfl
  | cons v ps ih =>
    intro s h
    simp only [fix_object_property_access, List.foldl_cons]
    rw [subRule_id (h v (List.mem_cons_self v ps))]
    exact ih s (fun w hw => h w (List.mem_cons_of_mem v hw))

theorem fopa_keepP :
    ∀ (ps : List (List Char)) (s : List Char),
      (∀ w ∈ ps, ∀ c ∈ w, wordChar c = true) → cleanP s →
      cleanP (fix_object_property_access s ps) := by
  intro ps
  induction ps with
  | nil => intro s _ h; exact h
  | cons v ps ih =>
    intro s hword h
    simp only [fix_object_property_access, List.foldl_cons]
    exact ih (subRule v s) (fun w hw => hword w (List.mem_cons_of_mem v hw))
      (subRule_keepP v s (hword v (List.mem_cons_self v ps)) h)

theorem fopa_keepR :
    ∀ (ps : List (List Char)) (s v : List Char), (∀ c ∈ v, wordChar c = true) →
      (∀ w ∈ ps, ∀ c ∈ w, wordChar c = true) → cleanR v s →
      cleanR v (fix_object_property_access s ps) := by
  intro ps
  induction ps with
  | nil => intro s v _ _ h; exact h
  | cons u ps ih =>
    intro s v hv hword h
    simp only [fix_object_property_access, List.foldl_cons]
    exact ih (subRule u s) v hv (fun w hw => hword w (List.mem_cons_of_mem u hw))
      (subRule_keepR v u s hv (hword u (List.mem_cons_self u ps)) h)

theorem fopa_allclean :
    ∀ (ps : List (List Char)) (s : List Char),
      (∀ w ∈ ps, ∀ c ∈ w, wordChar c = true) →
      ∀ w ∈ ps, cleanR w (fix_object_property_access s ps) := by
  intro ps
  induction ps with
  | nil => intro s _ w hw; exact absurd hw (List.not_mem_nil w)
  | cons v ps ih =>
    intro s hword w hw
    simp only [fix_object_property_access, List.foldl_cons]
    rcases List.mem_cons.mp hw with h | h
    · subst h
      exact fopa_keepR ps (subRule w s) w (hword w (List.mem_cons_self w ps))
        (fun u hu => hword u (List.mem_cons_of_mem w hu))
        (subRule_clean w s (hword w (List.mem_cons_self w ps)))
    · exact ih (subRule v s) (fun u hu => hword u (List.mem_cons_of_mem v hu)) w h

/-! ### Claim theorems about the transform -/

/-- C1: Idempotence of the transform: for every input string `s`, applying
the full ordered rule set (`fix_process_env` followed by
`fix_object_property_access` over the fixed pattern list) to its own output
yields the same string, so a second run over already-fixed text changes
nothing. -/
theorem C1_transform_idempotent (s : List Char) :
    transform (transform s) = transform s := by
  have hword := patterns_word
  have hP : cleanP (transform s) :=
    fopa_keepP patterns (FixTs4111.fix_process_env s) hword (penv_clean s)
  have hR : ∀ w ∈ patterns, cleanR w (transform s) :=
    fopa_allclean patterns (FixTs4111.fix_process_env s) hword
  show fix_object_property_access (FixTs4111.fix_process_env (transform s)) patterns
      = transform s
  rw [show FixTs4111.fix_process_env (transform s) = transform s from penvSub_id _ hP]
  exact fopa_eq_self patterns (transform s) hR

/-- C5: Identity on no-match: if no rule's pattern (neither the
`process.env` pattern nor any generic identifier pattern) matches anywhere
in the input, the transform returns a string equal to the input, and the
driver's comparison then performs no write: `processFile` leaves the
filesystem, the counter and the message log unchanged for such a file. -/
theorem C5_identity_on_no_match (s : List Char)
    (hP : cleanP s) (hR : ∀ w ∈ patterns, cleanR w s) :
    transform s = s ∧
    ∀ (fs : FSys) (cnt : Nat) (msgs : List (List Char)) (p : List Char),
      fs.read p = Except.ok s → processFile transform (fs, cnt, msgs) p = (fs, cnt, msgs) := by
  have ht : transform s = s := by
    show fix_object_property_access (FixTs4111.fix_process_env s) patterns = s
    rw [show FixTs4111.fix_process_env s = s from penvSub_id _ hP]
    exact fopa_eq_self patterns s hR
  refine ⟨ht, ?_⟩
  intro fs cnt msgs p hread
  simp [processFile, hread, ht]

/-- Witness for C5 at the concrete no-match input `let x = 1`. -/
theorem C5_witness :
    (cleanP "let x = 1".data ∧ ∀ w ∈ patterns, cleanR w "let x = 1".data) ∧
      transform "let x = 1".data = "let x = 1".data := by
  have h1 : cleanP "let x = 1".data := by decide
  have h2 : ∀ w ∈ patterns, cleanR w "let x = 1".data := by decide
  exact ⟨⟨h1, h2⟩, (C5_identity_on_no_match "let x = 1".data h1 h2).1⟩

theorem penvSubF_congr :
    ∀ (rf rf' : List Char → List Char), (∀ g, rf g = rf' g) →
      ∀ (fuel : Nat) (s : List Char), penvSubF rf fuel s = penvSubF rf' fuel s := by
  intro rf rf' h fuel
  induction fuel with
  | zero => intro s; cases s <;> rfl
  | succ fuel ih =>
    intro s
    cases s with
    | nil => rfl
    | cons c rest =>
      simp only [penvSubF]
      by_cases hm : penvM (c :: rest) = true
      · rw [if_pos hm, if_pos hm, h, ih]
      · rw [if_neg hm, if_neg hm, ih]

/-- C9: The two implementations of `fix_process_env` — the one of
`fix-process-env.py` using a callback replacement function and the one of
`fix-ts4111.py` using the template `process.env['\1']` — compute the same
function: on every input they return identical output. -/
theorem C9_fix_process_env_agree (s : List Char) :
    FixTs4111.fix_process_env s = FixProcessEnv.fix_process_env s := by
  show penvSub (expand template) s = penvSub replace_match s
  unfold penvSub
  refine penvSubF_congr _ _ (fun g => ?_) s.length s
  rw [expand_template]
  simp [replace_match, exLitA, List.append_assoc]

/-- C3: Call-site exclusion: for every identifier `m` of the pattern list,
the input `obj.m(x)` — opening parenthesis immediately after the
identifier — is left unchanged by the transform. -/
theorem C3_call_site_exclusion :
    ∀ m ∈ patterns,
      transform ("obj.".data ++ m ++ "(x)".data) = "obj.".data ++ m ++ "(x)".data := by
  decide

/-- Witness for C3 at the identifier `method` of the claim. -/
theorem C3_witness :
    "method".data ∈ patterns ∧
      transform "obj.method(x)".data = "obj.method(x)".data :=
  ⟨by decide, C3_call_site_exclusion "method".data (by decide)⟩

/-- C8: Generic identifier rewrite: `user.email` (the identifier not
followed by an opening parenthesis) is rewritten to `user['email']`. -/
theorem C8_user_email :
    transform "user.email".data = "user['email']".data := by decide

/-- C10: The call-site exclusion inspects only the single character
immediately after the identifier: with whitespace before the parenthesis,
`obj.m (x)` is still rewritten to `obj['m'] (x)` for every identifier `m`
of the pattern list — the negative lookahead does not skip whitespace. -/
theorem C10_lookahead_single_char :
    ∀ m ∈ patterns,
      transform ("obj.".data ++ m ++ " (x)".data)
        = "obj['".data ++ m ++ "'] (x)".data := by
  decide

/-- Witness for C10 at the identifier `method`. -/
theorem C10_witness :
    "method".data ∈ patterns ∧
      transform "obj.method (x)".data = "obj['method'] (x)".data :=
  ⟨by decide, C10_lookahead_single_char "method".data (by decide)⟩

/-! ### The property-name rule (C4) -/

theorem identStart_to_identChar {c : Char} (h : identStart c = true) : identChar c = true := by
  simp only [identStart, Bool.or_eq_true, beq_iff_eq] at h
  rcases h with h | h
  · simp [identChar, h]
  · simp [identChar, h]

theorem takeWhile_app (p : Char → Bool) :
    ∀ (a b : List Char), (∀ c ∈ a, p c = true) →
      (b = [] ∨ ∃ d b', b = d :: b' ∧ p d = false) →
      (a ++ b).takeWhile p = a ∧ (a ++ b).dropWhile p = b := by
  intro a
  induction a with
  | nil =>
    intro b _ hb
    rcases hb with rfl | ⟨d, b', rfl, hd⟩
    · exact ⟨rfl, rfl⟩
    · constructor
      · simp [List.takeWhile_cons, hd]
      · simp [List.dropWhile_cons, hd]
  | cons x a ih =>
    intro b ha hb
    have hx : p x = true := ha x (List.mem_cons_self x a)
    have ih' := ih b (fun c hc => ha c (List.mem_cons_of_mem x hc)) hb
    constructor
    · simp [List.takeWhile_cons, hx, ih'.1]
    · simp [List.dropWhile_cons, hx, ih'.2]

/-- C4: Property-name rule correctness: an occurrence of the literal
`process.env.` followed by an identifier (`[A-Z_]` head, `[A-Z0-9_]` tail,
maximal because the following character, if any, is outside the class) is
rewritten to `process.env['IDENT']`, and scanning continues after it;
in particular `process.env.API_KEY` becomes `process.env['API_KEY']`,
both under `fix_process_env` alone and under the full transform. -/
theorem C4_property_name_rule (i : Char) (irest rest : List Char)
    (h1 : identStart i = true) (h2 : ∀ c ∈ irest, identChar c = true)
    (h3 : rest = [] ∨ ∃ d rs, rest = d :: rs ∧ identChar d = false) :
    (FixTs4111.fix_process_env (penvLit ++ (i :: irest) ++ rest)
        = exLitA ++ (i :: irest) ++ ['\'', ']'] ++ FixTs4111.fix_process_env rest)
    ∧ FixTs4111.fix_process_env "process.env.API_KEY".data
        = "process.env['API_KEY']".data
    ∧ transform "process.env.API_KEY".data = "process.env['API_KEY']".data := by
  refine ⟨?_, by decide, by decide⟩
  have hL : penvLit ++ (i :: irest) ++ rest
      = 'p' :: (penvTail11 ++ ((i :: irest) ++ rest)) := by
    rw [penvLit_eq_cons]; simp [List.append_assoc]
  have h11 : penvTail11.length = 11 := by decide
  have hdrop : (penvTail11 ++ ((i :: irest) ++ rest)).drop 11 = (i :: irest) ++ rest := by
    rw [← h11, List.drop_left]
  have hiC : ∀ c ∈ i :: irest, identChar c = true := by
    intro c hc
    rcases List.mem_cons.mp hc with rfl | hc'
    · exact identStart_to_identChar h1
    · exact h2 c hc'
  obtain ⟨htw, hdw⟩ := takeWhile_app identChar (i :: irest) rest hiC h3
  have hpm : penvM ('p' :: (penvTail11 ++ ((i :: irest) ++ rest))) = true := by
    rw [penvM_cons, hdrop]
    have hpref : penvTail11.isPrefixOf (penvTail11 ++ ((i :: irest) ++ rest)) = true := by
      rw [isPrefixOf_eq]; exact List.prefix_append _ _
    simp [hpref, List.cons_append, boundaryP, h1]
  show penvSub (expand template) (penvLit ++ (i :: irest) ++ rest) = _
  rw [hL, penvSub_cons, if_pos hpm, hdrop, htw, hdw, expand_template]
  show exLitA ++ ((i :: irest) ++ ['\'', ']']) ++ penvSub (expand template) rest = _
  simp [FixTs4111.fix_process_env, List.append_assoc]

/-- Witness for C4: the identifier `API_KEY` with nothing following. -/
theorem C4_witness :
    (identStart 'A' = true ∧ ∀ c ∈ "PI_KEY".data, identChar c = true) ∧
      FixTs4111.fix_process_env (penvLit ++ ('A' :: "PI_KEY".data) ++ [])
        = exLitA ++ ('A' :: "PI_KEY".data) ++ ['\'', ']'] ++ FixTs4111.fix_process_env [] :=
  ⟨⟨by decide, by decide⟩,
    (C4_property_name_rule 'A' "PI_KEY".data [] (by decide) (by decide) (Or.inl rfl)).1⟩


/-! ### Driver lemmas -/

theorem processFile_msgs_mono (f : List Char → List Char)
    (st : FSys × Nat × List (List Char)) (q : List Char) {x : List Char}
    (hx : x ∈ st.2.2) : x ∈ (processFile f st q).2.2 := by
  unfold processFile
  cases hr : st.1.read q with
  | error e => exact List.mem_append_left _ hx
  | ok content =>
    by_cases hc : f content = content
    · simp only [if_pos hc]; exact hx
    · cases hw : st.1.writeFail q with
      | some e => simp only [if_neg hc]; exact List.mem_append_left _ hx
      | none => simp only [if_neg hc]; exact List.mem_append_left _ hx

theorem foldl_msgs_mono (f : List Char → List Char) :
    ∀ (files : List (List Char)) (st : FSys × Nat × List (List Char)) (x : List Char),
      x ∈ st.2.2 → x ∈ (files.foldl (processFile f) st).2.2 := by
  intro files
  induction files with
  | nil => intro st x hx; exact hx
  | cons q files ih =>
    intro st x hx
    rw [List.foldl_cons]
    exact ih _ x (processFile_msgs_mono f st q hx)

theorem processFile_fs_count (f : List Char → List Char)
    (st st' : FSys × Nat × List (List Char)) (q : List Char)
    (h1 : st.1 = st'.1) (h2 : st.2.1 = st'.2.1) :
    (processFile f st q).1 = (processFile f st' q).1 ∧
      (processFile f st q).2.1 = (processFile f st' q).2.1 := by
  unfold processFile
  rw [← h1, ← h2]
  cases hr : st.1.read q with
  | error e => exact ⟨rfl, rfl⟩
  | ok content =>
    by_cases hc : f content = content
    · simp only [if_pos hc]; exact ⟨by trivial, by trivial⟩
    · cases hw : st.1.writeFail q with
      | some e => simp only [if_neg hc]; exact ⟨by trivial, by trivial⟩
      | none => simp only [if_neg hc]; exact ⟨by trivial, by trivial⟩

theorem writeFs_writeFail (fs : FSys) (p c q : List Char) :
    (writeFs fs p c).writeFail q = fs.writeFail q := rfl

theorem writeFs_read_ne (fs : FSys) (p c q : List Char) (h : q ≠ p) :
    (writeFs fs p c).read q = fs.read q := by
  simp [writeFs, h]

theorem processFile_keeps_fileFails (f : List Char → List Char)
    (st : FSys × Nat × List (List Char)) (q p e : List Char)
    (h : fileFails f st.1 p e) : fileFails f (processFile f st q).1 p e := by
  unfold processFile
  cases hr : st.1.read q with
  | error e' => exact h
  | ok content =>
    by_cases hc : f content = content
    · simp only [if_pos hc]; exact h
    · cases hw : st.1.writeFail q with
      | some e' => simp only [if_neg hc]; exact h
      | none =>
        simp only [if_neg hc]
        have hqp : p ≠ q := by
          intro hpq; subst hpq
          rcases h with h' | ⟨c, hc2, _, hwf2⟩
          · rw [h'] at hr; cases hr
          · rw [hwf2] at hw; cases hw
        rcases h with h' | ⟨c, hc2, hne2, hwf2⟩
        · left
          rw [writeFs_read_ne st.1 q (f content) p hqp]
          exact h'
        · right
          refine ⟨c, ?_, hne2, ?_⟩
          · rw [writeFs_read_ne st.1 q (f content) p hqp]; exact hc2
          · rw [writeFs_writeFail]; exact hwf2

theorem processFile_at_fail (f : List Char → List Char)
    (st : FSys × Nat × List (List Char)) (p e : List Char)
    (h : fileFails f st.1 p e) :
    processFile f st p = (st.1, st.2.1, st.2.2 ++ [errLine p e]) := by
  unfold processFile
  rcases h with h' | ⟨c, hc2, hne2, hwf2⟩
  · rw [h']
  · rw [hc2]
    simp only [if_neg hne2, hwf2]

theorem foldl_keeps_fileFails (f : List Char → List Char) (p e : List Char) :
    ∀ (files : List (List Char)) (st : FSys × Nat × List (List Char)),
      fileFails f st.1 p e → fileFails f (files.foldl (processFile f) st).1 p e := by
  intro files
  induction files with
  | nil => intro st h; exact h
  | cons q files ih =>
    intro st h
    rw [List.foldl_cons]
    exact ih _ (processFile_keeps_fileFails f st q p e h)

theorem foldl_err_mem (f : List Char → List Char) (p e : List Char) :
    ∀ (files : List (List Char)) (st : FSys × Nat × List (List Char)),
      fileFails f st.1 p e → p ∈ files →
      errLine p e ∈ (files.foldl (processFile f) st).2.2 := by
  intro files
  induction files with
  | nil => intro st _ hp; exact absurd hp (List.not_mem_nil p)
  | cons q files ih =>
    intro st hinv hp
    rw [List.foldl_cons]
    rcases List.mem_cons.mp hp with hqp | hp'
    · subst hqp
      refine foldl_msgs_mono f files _ _ ?_
      rw [processFile_at_fail f st p e hinv]
      exact List.mem_append_right _ (List.mem_singleton.mpr rfl)
    · exact ih _ (processFile_keeps_fileFails f st q p e hinv) hp'

theorem foldl_skip_fail (f : List Char → List Char) (p e : List Char) :
    ∀ (files : List (List Char)) (st st' : FSys × Nat × List (List Char)),
      st.1 = st'.1 → st.2.1 = st'.2.1 → fileFails f st.1 p e →
      (files.foldl (processFile f) st).1
          = ((files.filter (fun q => q != p)).foldl (processFile f) st').1 ∧
        (files.foldl (processFile f) st).2.1
          = ((files.filter (fun q => q != p)).foldl (processFile f) st').2.1 := by
  intro files
  induction files with
  | nil => intro st st' h1 h2 _; exact ⟨h1, h2⟩
  | cons q files ih =>
    intro st st' h1 h2 hinv
    rw [List.foldl_cons]
    by_cases hq : q = p
    · subst hq
      have hfilter : (q :: files).filter (fun r => r != q) = files.filter (fun r => r != q) := by
        simp [List.filter_cons]
      rw [hfilter]
      have hstep := processFile_at_fail f st q e hinv
      refine ih _ st' ?_ ?_ ?_
      · rw [hstep]; exact h1
      · rw [hstep]; exact h2
      · rw [hstep]; exact hinv
    · have hfilter : (q :: files).filter (fun r => r != p)
          = q :: files.filter (fun r => r != p) := by
        simp [List.filter_cons, bne_iff_ne, hq]
      rw [hfilter, List.foldl_cons]
      have hcomp := processFile_fs_count f st st' q h1 h2
      exact ih _ _ hcomp.1 hcomp.2 (processFile_keeps_fileFails f st q p e hinv)

theorem isFixedMsg_fixedLine (p : List Char) : isFixedMsg (fixedLine p) = true := by
  unfold isFixedMsg fixedLine
  rw [isPrefixOf_eq]
  exact List.prefix_append _ _

theorem isFixedMsg_errLine (p e : List Char) : isFixedMsg (errLine p e) = false := by
  have h : (('F' : Char) == 'E') = false := by decide
  simp only [isFixedMsg, errLine, errPre, fixedPre, List.cons_append, List.isPrefixOf, h,
    Bool.false_and]

theorem isFixedMsg_summary (n : Nat) : isFixedMsg (summaryLine n) = false := by
  have h : (('F' : Char) == '\n') = false := by decide
  simp only [isFixedMsg, summaryLine, fixedPre, List.isPrefixOf, h, Bool.false_and]

theorem foldl_count_fixed (f : List Char → List Char) :
    ∀ (files : List (List Char)) (st : FSys × Nat × List (List Char)),
      (files.foldl (processFile f) st).2.1 + st.2.2.countP isFixedMsg
        = st.2.1 + ((files.foldl (processFile f) st).2.2.countP isFixedMsg) := by
  intro files
  induction files with
  | nil => intro st; rfl
  | cons q files ih =>
    intro st
    rw [List.foldl_cons]
    have hstep : (processFile f st q).2.1 + st.2.2.countP isFixedMsg
        = st.2.1 + ((processFile f st q).2.2.countP isFixedMsg) := by
      unfold processFile
      cases hr : st.1.read q with
      | error e =>
        simp [List.countP_append, List.countP_cons, isFixedMsg_errLine]
      | ok content =>
        by_cases hc : f content = content
        · simp [hc]
        · cases hw : st.1.writeFail q with
          | some e =>
            simp [if_neg hc, hw, List.countP_append, List.countP_cons, isFixedMsg_errLine]
          | none =>
            simp [if_neg hc, hw, List.countP_append, List.countP_cons, isFixedMsg_fixedLine]
            omega
    have hrec := ih (processFile f st q)
    omega

theorem processFile_frame (f : List Char → List Char)
    (st : FSys × Nat × List (List Char)) (q r : List Char) (h : r ≠ q) :
    (processFile f st q).1.read r = st.1.read r := by
  unfold processFile
  cases hr : st.1.read q with
  | error e => rfl
  | ok content =>
    by_cases hc : f content = content
    · simp only [if_pos hc]
    · cases hw : st.1.writeFail q with
      | some e => simp only [if_neg hc]
      | none =>
        simp only [if_neg hc]
        exact writeFs_read_ne st.1 q (f content) r h

theorem foldl_frame (f : List Char → List Char) :
    ∀ (files : List (List Char)) (st : FSys × Nat × List (List Char)) (r : List Char),
      r ∉ files → (files.foldl (processFile f) st).1.read r = st.1.read r := by
  intro files
  induction files with
  | nil => intro st r _; rfl
  | cons q files ih =>
    intro st r hr
    rw [List.foldl_cons]
    have hrq : r ≠ q := fun h => hr (h ▸ List.mem_cons_self q files)
    have hrf : r ∉ files := fun h => hr (List.mem_cons_of_mem q h)
    rw [ih _ r hrf]
    exact processFile_frame f st q r hrq

/-! ### Claim theorems about the drivers -/

/-- C2: Failure isolation: if processing candidate `p` raises (on read, or
on write after a changed transform), then the run reports `p`'s error line,
the final filesystem and counter are exactly those of the run without `p`,
and the run still completes, its last output line being the summary with
the final count. -/
theorem C2_failure_isolation (f : List Char → List Char) (fs : FSys)
    (files : List (List Char)) (p e : List Char)
    (hp : p ∈ files) (hf : fileFails f fs p e) :
    errLine p e ∈ (runMain f fs files).2.2 ∧
    (runMain f fs files).1 = (runMain f fs (files.filter (fun q => q != p))).1 ∧
    (runMain f fs files).2.1 = (runMain f fs (files.filter (fun q => q != p))).2.1 ∧
    (runMain f fs files).2.2.getLast? = some (summaryLine (runMain f fs files).2.1) := by
  have hskip := foldl_skip_fail f p e files (fs, 0, []) (fs, 0, []) rfl rfl hf
  refine ⟨?_, ?_, ?_, ?_⟩
  · exact List.mem_append_left _ (foldl_err_mem f p e files (fs, 0, []) hf hp)
  · exact hskip.1
  · exact hskip.2
  · exact List.getLast?_concat _

/-- Witness for C2: a two-file run in which reading the first file fails. -/
theorem C2_witness :
    ("a.ts".data ∈ ["a.ts".data, "b.ts".data] ∧
      fileFails transform
        { read := fun q => if q = "a.ts".data then Except.error "boom".data
            else Except.ok "user.email".data,
          writeFail := fun _ => none }
        "a.ts".data "boom".data) ∧
      errLine "a.ts".data "boom".data ∈
        (runMain transform
          { read := fun q => if q = "a.ts".data then Except.error "boom".data
              else Except.ok "user.email".data,
            writeFail := fun _ => none }
          ["a.ts".data, "b.ts".data]).2.2 := by
  have h1 : "a.ts".data ∈ ["a.ts".data, "b.ts".data] := by decide
  have h2 : fileFails transform
      { read := fun q => if q = "a.ts".data then Except.error "boom".data
          else Except.ok "user.email".data,
        writeFail := fun _ => none } "a.ts".data "boom".data := by
    left; simp
  exact ⟨⟨h1, h2⟩, (C2_failure_isolation transform _ _ _ _ h1 h2).1⟩

/-- C6: Conditional write and counter: for a successfully read file whose
write does not raise, the file is written back and the counter incremented
exactly when the transformed content differs; when it is equal nothing
happens; and over a whole run the final count equals the number of `Fixed:`
outcome lines. -/
theorem C6_conditional_write (f : List Char → List Char) (fs : FSys) (cnt : Nat)
    (msgs : List (List Char)) (p c : List Char)
    (hr : fs.read p = Except.ok c) (hw : fs.writeFail p = none) :
    (f c ≠ c → processFile f (fs, cnt, msgs) p
        = (writeFs fs p (f c), cnt + 1, msgs ++ [fixedLine p])) ∧
    (f c = c → processFile f (fs, cnt, msgs) p = (fs, cnt, msgs)) ∧
    ∀ (files : List (List Char)) (fs0 : FSys),
      (runMain f fs0 files).2.1 = (runMain f fs0 files).2.2.countP isFixedMsg := by
  refine ⟨?_, ?_, ?_⟩
  · intro hne
    unfold processFile
    rw [show ((fs, cnt, msgs) : FSys × Nat × List (List Char)).1.read p = Except.ok c from hr]
    simp only [if_neg hne, hw]
  · intro heq
    unfold processFile
    rw [show ((fs, cnt, msgs) : FSys × Nat × List (List Char)).1.read p = Except.ok c from hr]
    simp only [if_pos heq]
  · intro files fs0
    have h := foldl_count_fixed f files (fs0, 0, [])
    simp only [List.countP_nil] at h
    unfold runMain
    simp [List.countP_append, List.countP_cons, isFixedMsg_summary]
    omega

/-- Witness for C6: a changed file is written back and counted. -/
theorem C6_witness :
    ((FSys.read { read := fun _ => Except.ok "user.email".data, writeFail := fun _ => none }
        "a.ts".data = Except.ok "user.email".data) ∧
      transform "user.email".data ≠ "user.email".data) ∧
      processFile transform
          ({ read := fun _ => Except.ok "user.email".data, writeFail := fun _ => none },
            0, []) "a.ts".data
        = (writeFs { read := fun _ => Except.ok "user.email".data, writeFail := fun _ => none }
            "a.ts".data (transform "user.email".data), 0 + 1, [] ++ [fixedLine "a.ts".data]) := by
  have h1 : FSys.read
      { read := fun _ => Except.ok "user.email".data, writeFail := fun _ => none }
      "a.ts".data = Except.ok "user.email".data := rfl
  have h2 : transform "user.email".data ≠ "user.email".data := by decide
  exact ⟨⟨h1, h2⟩,
    (C6_conditional_write transform _ 0 [] "a.ts".data "user.email".data h1 rfl).1 h2⟩

/-- C7: Discovery completeness: a path is a candidate exactly when it is a
listed file under `src` with suffix `.ts` or `.tsx`, or under `scripts`
with suffix `.ts`, or it is the unconditionally appended `next.config.ts`;
and the run never touches (reads differently or writes) any path outside
the candidate list. -/
theorem C7_discovery (allFiles : List (List Char)) (p : List Char) :
    (p ∈ discovered allFiles ↔
      (p ∈ allFiles ∧
        (("src/".data.isPrefixOf p = true ∧ ".ts".data.isSuffixOf p = true) ∨
         ("src/".data.isPrefixOf p = true ∧ ".tsx".data.isSuffixOf p = true) ∨
         ("scripts/".data.isPrefixOf p = true ∧ ".ts".data.isSuffixOf p = true))) ∨
      p = nextConfig) ∧
    ∀ (f : List Char → List Char) (fs : FSys) (files : List (List Char)),
      p ∉ files → (runMain f fs files).1.read p = fs.read p := by
  constructor
  · have e1 : "src".data ++ ['/'] = "src/".data := rfl
    have e2 : "scripts".data ++ ['/'] = "scripts/".data := rfl
    simp only [discovered, rglob, nextConfig, List.mem_append, List.mem_filter,
      Bool.and_eq_true, List.mem_singleton, e1, e2]
    tauto
  · intro f fs files hnf
    unfold runMain
    exact foldl_frame f files (fs, 0, []) p hnf

/-- Witness for C7: a non-candidate path is untouched by a run. -/
theorem C7_witness :
    ("src/b.txt".data ∉ (["x.md".data] : List (List Char))) ∧
      (runMain transform { read := fun _ => Except.ok [], writeFail := fun _ => none }
          ["x.md".data]).1.read "src/b.txt".data
        = FSys.read { read := fun _ => Except.ok [], writeFail := fun _ => none }
            "src/b.txt".data := by
  have h1 : "src/b.txt".data ∉ (["x.md".data] : List (List Char)) := by decide
  exact ⟨h1, (C7_discovery [] "src/b.txt".data).2 transform _ ["x.md".data] h1⟩
